import Mathlib

/-!
Shallow embedding of the consumer-to-consumer microloan fraud detector
(`consumer.py`): graph construction from transaction records, simple-cycle
enumeration, betweenness-centrality scoring, and the visualization's
cycle-edge marking.  Nodes are modelled generically by a type with
decidable equality (the program uses opaque string ids); amounts are
modelled by rationals.
-/

variable {α : Type} [DecidableEq α]

/-- A transaction record: one row of the input dataframe
(`Lender, Borrower, Amount, Label`). -/
structure Record (α : Type) where
  lender : α
  borrower : α
  amount : ℚ
  label : String
deriving DecidableEq, Repr

/-- A directed edge of the graph with its `weight` and `label` attributes,
as stored by `nx.DiGraph.add_edge`. -/
structure Edge (α : Type) where
  src : α
  dst : α
  weight : ℚ
  label : String
deriving DecidableEq, Repr

/-- The directed graph: node list in insertion order and edge list in
insertion order.  `nx.DiGraph` keys edges by the ordered pair, so
`insertEdge` below overwrites attributes of an existing pair. -/
structure Graph (α : Type) where
  nodes : List α
  edges : List (Edge α)
deriving DecidableEq, Repr

/-- Add a node if absent, preserving insertion order
(`nx.DiGraph` auto-creates endpoints on `add_edge`). -/
def addNode (ns : List α) (x : α) : List α :=
  if x ∈ ns then ns else ns ++ [x]

/-- Both endpoints of a record are inserted into the node list,
lender first, as `add_edge` does. -/
def insertNodes (ns : List α) (r : Record α) : List α :=
  addNode (addNode ns r.lender) r.borrower

/-- Insert the edge of one record: `nx.DiGraph.add_edge` overwrites the
attributes of an existing (src, dst) pair and otherwise appends a new
edge. -/
def insertEdge (es : List (Edge α)) (r : Record α) : List (Edge α) :=
  if es.any (fun e => decide (e.src = r.lender) && decide (e.dst = r.borrower)) then
    es.map (fun e =>
      if e.src = r.lender ∧ e.dst = r.borrower then
        { e with weight := r.amount, label := r.label }
      else e)
  else
    es ++ [⟨r.lender, r.borrower, r.amount, r.label⟩]

/-- `build_graph(df)` from `consumer.py`: fold `G.add_edge(lender, borrower,
weight=amount, label=label)` over the rows of the dataframe, starting from
the empty `nx.DiGraph()`. -/
def build_graph (df : List (Record α)) : Graph α :=
  df.foldl (fun G r => ⟨insertNodes G.nodes r, insertEdge G.edges r⟩) ⟨[], []⟩

/-- Adjacency: a directed edge from `u` to `v` is present in the graph. -/
def adjP (G : Graph α) (u v : α) : Prop :=
  ∃ e ∈ G.edges, e.src = u ∧ e.dst = v

instance (G : Graph α) (u v : α) : Decidable (adjP G u v) := by
  unfold adjP; infer_instance

/-- Boolean adjacency test. -/
def adjB (G : Graph α) (u v : α) : Bool :=
  G.edges.any (fun e => decide (e.src = u) && decide (e.dst = v))

/-- Every consecutive step of the candidate cycle, wrapping from the last
position back to position 0, follows a directed edge of the graph. -/
def cycleChainB (G : Graph α) (c : List α) : Bool :=
  (List.range c.length).all (fun i =>
    match c.get? i, c.get? ((i + 1) % c.length) with
    | some u, some v => adjB G u v
    | _, _ => false)

/-- A simple directed cycle of the graph, as a nonempty duplicate-free node
sequence whose consecutive pairs (with wraparound) are all edges. -/
def isDirCycleB (G : Graph α) (c : List α) : Bool :=
  !c.isEmpty && decide c.Nodup && c.all (fun x => decide (x ∈ G.nodes)) &&
    cycleChainB G c

/-- Propositional form of `isDirCycleB`. -/
def isDirCycleP (G : Graph α) (c : List α) : Prop :=
  c ≠ [] ∧ c.Nodup ∧ (∀ x ∈ c, x ∈ G.nodes) ∧
    ∀ i u v, i < c.length → c.get? i = some u →
      c.get? ((i + 1) % c.length) = some v → adjP G u v

/-- Canonical representative of a rotation class: the cycle starts at its
member that comes earliest in the graph's node order (the starting node
`nx.simple_cycles` roots each elementary circuit at). -/
def isCanonicalB (G : Graph α) (c : List α) : Bool :=
  match c.head? with
  | none => true
  | some h => c.all (fun x => decide (G.nodes.indexOf h ≤ G.nodes.indexOf x))

/-- All subsequences of a list (kernel-reducible enumeration). -/
def subseqs : List α → List (List α)
  | [] => [[]]
  | x :: xs => subseqs xs ++ (subseqs xs).map (x :: ·)

/-- All ways to insert `x` somewhere into a list. -/
def interleavings (x : α) : List α → List (List α)
  | [] => [[x]]
  | y :: ys => (x :: y :: ys) :: (interleavings x ys).map (y :: ·)

/-- All permutations of a list (kernel-reducible enumeration). -/
def perms : List α → List (List α)
  | [] => [[]]
  | x :: xs => (perms xs).flatMap (interleavings x)

/-- Every duplicate-free sequence over the node list: candidate node
sequences for cycles and paths. -/
def nodeSeqs (G : Graph α) : List (List α) :=
  (subseqs G.nodes).flatMap perms

/-- Model of `nx.simple_cycles(G)` as called by `detect_fraud`: every simple
directed cycle of the graph (self-loops included), each elementary circuit
listed exactly once, rooted at its earliest node in the graph's node
order. -/
def simple_cycles (G : Graph α) : List (List α) :=
  ((nodeSeqs G).filter (fun c => isDirCycleB G c && isCanonicalB G c)).dedup

/-- The suspicious-cycle filter of `detect_fraud`
(`[cycle for cycle in cycles if len(cycle) <= k]`, with `k = 5` in the
source). -/
def filter_suspicious (cycles : List (List α)) (k : ℕ) : List (List α) :=
  cycles.filter (fun c => decide (c.length ≤ k))

/-- Every consecutive step of the candidate path follows a directed edge. -/
def pathChainB (G : Graph α) (p : List α) : Bool :=
  (List.range (p.length - 1)).all (fun i =>
    match p.get? i, p.get? (i + 1) with
    | some u, some v => adjB G u v
    | _, _ => false)

/-- A simple directed path in the graph. -/
def isPathB (G : Graph α) (p : List α) : Bool :=
  !p.isEmpty && decide p.Nodup && p.all (fun x => decide (x ∈ G.nodes)) &&
    pathChainB G p

/-- All simple directed paths from `s` to `t` (shortest paths in an
unweighted digraph are always simple, so these suffice for betweenness). -/
def simplePaths (G : Graph α) (s t : α) : List (List α) :=
  ((nodeSeqs G).filter (fun p =>
    isPathB G p && decide (p.head? = some s) && decide (p.getLast? = some t))).dedup

/-- The shortest `s`-`t` paths: the simple paths of minimal length. -/
def shortestPaths (G : Graph α) (s t : α) : List (List α) :=
  let ps := simplePaths G s t
  ps.filter (fun p => ps.all (fun q => decide (p.length ≤ q.length)))

/-- A path passes through `v` when `v` is an interior node of it. -/
def throughB (v : α) (p : List α) : Bool :=
  decide (v ∈ p) && !decide (p.head? = some v) && !decide (p.getLast? = some v)

/-- The pair dependency of `(s, t)` on `v`: the fraction of shortest
`s`-`t` paths passing through `v`, `0` when `t` is unreachable from `s`
(such pairs contribute nothing in Brandes' accumulation). -/
def pairDep (G : Graph α) (s t v : α) : ℚ :=
  let sp := shortestPaths G s t
  if sp.isEmpty then 0
  else ((sp.filter (throughB v)).length : ℚ) / (sp.length : ℚ)

/-- Raw (unnormalized) betweenness of `v`: sum of pair dependencies over all
ordered pairs of distinct nodes. -/
def rawBetweenness (G : Graph α) (v : α) : ℚ :=
  (G.nodes.map (fun s =>
    (G.nodes.map (fun t => if s = t then 0 else pairDep G s t v)).sum)).sum

/-- The normalized betweenness value of one node: `nx.betweenness_centrality`
rescales by `1 / ((n - 1) * (n - 2))` for a directed graph with more than
two nodes and leaves the raw value unscaled otherwise. -/
def betweennessValue (G : Graph α) (v : α) : ℚ :=
  if 2 < G.nodes.length then
    rawBetweenness G v /
      (((G.nodes.length : ℚ) - 1) * ((G.nodes.length : ℚ) - 2))
  else rawBetweenness G v

/-- Model of `nx.betweenness_centrality(G)`: a key-value list with one entry
per node of the graph. -/
def betweenness_centrality (G : Graph α) : List (α × ℚ) :=
  G.nodes.map (fun v => (v, betweennessValue G v))

/-- `detect_fraud(G)` from `consumer.py`: betweenness scores together with
the simple cycles of length at most `5`. -/
def detect_fraud (G : Graph α) :
    List (α × ℚ) × List (List α) :=
  (betweenness_centrality G, filter_suspicious (simple_cycles G) 5)

/-- Modelled from the spec: the Fraud Signal Composer's contract
`compose(graph, cycles, scores, high_risk_threshold, max_cycle_length)`
takes the maximum suspicious-cycle length as an explicit parameter; used
to compare the spec's claimed interface with the code's `detect_fraud`. -/
def detect_fraud_spec (G : Graph α) (maxLen : ℕ) :
    List (α × ℚ) × List (List α) :=
  (betweenness_centrality G, filter_suspicious (simple_cycles G) maxLen)

/-- Node color in `visualize_graph`: red above the hardcoded `0.1`
threshold, green otherwise. -/
def nodeColor (score : ℚ) : String :=
  if score > 1 / 10 then "red" else "green"

/-- Modelled from the spec: the high-risk threshold as a configurable
parameter (`is_high_risk := score > threshold`); used to compare the
spec's claimed interface with the code's fixed `0.1`. -/
def nodeColorSpec (score threshold : ℚ) : String :=
  if score > threshold then "red" else "green"

/-- A node of the rendered network: label/title elided, color and size as
computed by `visualize_graph`. -/
structure VisNode (α : Type) where
  id : α
  score : ℚ
  color : String
  size : ℚ
deriving DecidableEq, Repr

/-- An edge of the rendered network with its mutable color and title. -/
structure VisEdge (α : Type) where
  src : α
  dst : α
  color : String
  title : String
deriving DecidableEq, Repr

/-- The edges initially added to the network: orange for label `Fraud`,
gray otherwise, title from weight and label. -/
def initVisEdges (G : Graph α) : List (VisEdge α) :=
  G.edges.map (fun e =>
    ⟨e.src, e.dst, if e.label = "Fraud" then "orange" else "gray",
      "$" ++ toString e.weight ++ " | " ++ e.label⟩)

/-- The update applied to one network edge at position `i` of cycle `c`:
recolor purple and annotate when the edge matches the cycle step
(wrapping around from the last element to the first). -/
def markEdgeStep (c : List α) (i : ℕ) (e : VisEdge α) : VisEdge α :=
  if c.get? i = some e.src ∧ c.get? ((i + 1) % c.length) = some e.dst then
    { e with color := "purple", title := e.title ++ " (Cycle)" }
  else e

/-- One step of the cycle-highlight loop over all network edges. -/
def markStep (c : List α) (i : ℕ) (es : List (VisEdge α)) : List (VisEdge α) :=
  es.map (markEdgeStep c i)

/-- The cumulative update of one network edge from all positions of all
suspicious cycles (the per-edge view of the highlight loops). -/
def markEdgeAll (cycles : List (List α)) (e : VisEdge α) : VisEdge α :=
  cycles.foldl
    (fun e c => (List.range c.length).foldl (fun e i => markEdgeStep c i e) e) e

/-- The inner loop of the cycle highlighting: all positions of one cycle. -/
def markCycle (es : List (VisEdge α)) (c : List α) : List (VisEdge α) :=
  (List.range c.length).foldl (fun es i => markStep c i es) es

/-- The outer loop of the cycle highlighting: all suspicious cycles. -/
def markCycles (es : List (VisEdge α)) (cycles : List (List α)) :
    List (VisEdge α) :=
  cycles.foldl markCycle es

/-- `visualize_graph(G, fraud_scores, suspicious_cycles)` from `consumer.py`:
the network's nodes (color by threshold, size by score) and its edges after
cycle highlighting. -/
def visualize_graph (G : Graph α) (fraud_scores : List (α × ℚ))
    (suspicious_cycles : List (List α)) : List (VisNode α) × List (VisEdge α) :=
  (G.nodes.map (fun v =>
      let score := ((fraud_scores.lookup v).getD 0)
      ⟨v, score, nodeColor score, 15 + score * 50⟩),
    markCycles (initVisEdges G) suspicious_cycles)

/-- In-degree of a node: number of edges pointing at it. -/
def inDegree (G : Graph α) (v : α) : ℕ :=
  (G.edges.filter (fun e => decide (e.dst = v))).length

/-- Out-degree of a node: number of edges leaving it. -/
def outDegree (G : Graph α) (v : α) : ℕ :=
  (G.edges.filter (fun e => decide (e.src = v))).length

/-- Selects the edges with ordered endpoint pair `(u, v)`. -/
def keyB (u v : α) (e : Edge α) : Bool :=
  decide (e.src = u) && decide (e.dst = v)

/-- Selects the records with ordered pair `(u, v)` of lender and borrower. -/
def rkeyB (u v : α) (r : Record α) : Bool :=
  decide (r.lender = u) && decide (r.borrower = v)

/-- A three-node circular-lending dataset: `0 → 1 → 2 → 0`. -/
def triangleRecords : List (Record ℕ) :=
  [⟨0, 1, 1000, "Fraud"⟩, ⟨1, 2, 1000, "Fraud"⟩, ⟨2, 0, 1000, "Fraud"⟩]

/-- The graph of the three-node circular-lending dataset. -/
def gTriangle : Graph ℕ :=
  build_graph triangleRecords

/-- A single loan with no return path: `0 → 1`. -/
def gSingleEdge : Graph ℕ :=
  build_graph [⟨0, 1, 500, "Legit"⟩]

/-- A graph with a self-loan: `0 → 0`. -/
def gSelfLoop : Graph ℕ :=
  build_graph [⟨0, 0, 700, "Legit"⟩]

example : simple_cycles (build_graph
    [⟨0, 1, 1, "Legit"⟩, ⟨1, 2, 1, "Legit"⟩, ⟨2, 0, 1, "Legit"⟩]) =
    [[0, 1, 2]] := by decide

example : simple_cycles (build_graph [(⟨0, 1, 1, "Legit"⟩ : Record ℕ)]) = [] := by
  decide

example : (build_graph [(⟨0, 1, 1, "L"⟩ : Record ℕ), ⟨0, 1, 2, "F"⟩]).edges =
    [⟨0, 1, 2, "F"⟩] := by decide

unseal Rat.add Rat.mul Rat.inv Rat.sub in
example : betweenness_centrality (build_graph
    [⟨0, 1, 1, "Legit"⟩, ⟨1, 2, 1, "Legit"⟩, ⟨2, 0, 1, "Legit"⟩]) =
    [(0, 1 / 2), (1, 1 / 2), (2, 1 / 2)] := by decide

/-! ### Correctness of the candidate-sequence enumeration -/

omit [DecidableEq α] in
theorem mem_interleavings_perm {x : α} :
    ∀ {l p : List α}, p ∈ interleavings x l → List.Perm p (x :: l)
  | [], p, h => by
    simp only [interleavings, List.mem_singleton] at h
    subst h; rfl
  | y :: ys, p, h => by
    simp only [interleavings, List.mem_cons, List.mem_map] at h
    rcases h with rfl | ⟨q, hq, rfl⟩
    · rfl
    · exact ((mem_interleavings_perm hq).cons y).trans (List.Perm.swap x y ys)

omit [DecidableEq α] in
theorem interleavings_complete (x : α) :
    ∀ (p₁ p₂ : List α), p₁ ++ x :: p₂ ∈ interleavings x (p₁ ++ p₂)
  | [], p₂ => by cases p₂ <;> simp [interleavings]
  | y :: p₁, p₂ => by
    simp only [List.cons_append, interleavings, List.mem_cons, List.mem_map]
    exact Or.inr ⟨p₁ ++ x :: p₂, interleavings_complete x p₁ p₂, rfl⟩

omit [DecidableEq α] in
theorem mem_perms : ∀ {l p : List α}, p ∈ perms l ↔ List.Perm p l
  | [], p => by simp [perms, List.perm_nil]
  | x :: xs, p => by
    simp only [perms, List.mem_flatMap]
    constructor
    · rintro ⟨q, hq, hi⟩
      exact (mem_interleavings_perm hi).trans ((mem_perms.mp hq).cons x)
    · intro h
      obtain ⟨s, t, rfl⟩ := List.append_of_mem (h.symm.subset (List.mem_cons_self x xs))
      refine ⟨s ++ t, mem_perms.mpr ?_, interleavings_complete x s t⟩
      exact (List.perm_middle.symm.trans h).cons_inv

omit [DecidableEq α] in
theorem mem_subseqs : ∀ {l s : List α}, s ∈ subseqs l ↔ List.Sublist s l
  | [], s => by simp [subseqs]
  | x :: xs, s => by
    simp only [subseqs, List.mem_append, List.mem_map]
    constructor
    · rintro (h | ⟨t, ht, rfl⟩)
      · exact (mem_subseqs.mp h).cons x
      · exact (mem_subseqs.mp ht).cons₂ x
    · intro h
      cases h with
      | cons _ h => exact Or.inl (mem_subseqs.mpr h)
      | cons₂ _ h => exact Or.inr ⟨_, mem_subseqs.mpr h, rfl⟩

theorem mem_nodeSeqs_of {G : Graph α} {c : List α} (hN : G.nodes.Nodup)
    (hnd : c.Nodup) (hsub : ∀ x ∈ c, x ∈ G.nodes) : c ∈ nodeSeqs G := by
  refine List.mem_flatMap.mpr
    ⟨G.nodes.filter (fun x => decide (x ∈ c)),
      mem_subseqs.mpr (List.filter_sublist _), mem_perms.mpr ?_⟩
  refine (List.perm_ext_iff_of_nodup hnd (hN.filter _)).mpr fun a => ?_
  simp only [List.mem_filter, decide_eq_true_eq]
  exact ⟨fun ha => ⟨hsub a ha, ha⟩, fun h => h.2⟩

omit [DecidableEq α] in
theorem length_le_of_mem_nodeSeqs {G : Graph α} {c : List α}
    (h : c ∈ nodeSeqs G) : c.length ≤ G.nodes.length := by
  obtain ⟨s, hs, hp⟩ := List.mem_flatMap.mp h
  exact (mem_perms.mp hp).length_eq ▸ (mem_subseqs.mp hs).length_le

/-! ### Boolean reflection -/

theorem adjB_iff {G : Graph α} {u v : α} : adjB G u v = true ↔ adjP G u v := by
  simp [adjB, adjP, List.any_eq_true]

theorem cycleChainB_iff {G : Graph α} {c : List α} :
    cycleChainB G c = true ↔
      ∀ i u v, i < c.length → c.get? i = some u →
        c.get? ((i + 1) % c.length) = some v → adjP G u v := by
  constructor
  · intro hch i u v hi hu hv
    have := List.all_eq_true.mp hch i (List.mem_range.mpr hi)
    rw [hu, hv] at this
    exact adjB_iff.mp this
  · intro h
    refine List.all_eq_true.mpr fun i hi => ?_
    have hi' := List.mem_range.mp hi
    have hlen : 0 < c.length := Nat.lt_of_le_of_lt (Nat.zero_le i) hi'
    have h1 : c.get? i = some (c.get ⟨i, hi'⟩) := List.get?_eq_get hi'
    have h2 : c.get? ((i + 1) % c.length) =
        some (c.get ⟨(i + 1) % c.length, Nat.mod_lt _ hlen⟩) :=
      List.get?_eq_get (Nat.mod_lt _ hlen)
    rw [h1, h2]
    exact adjB_iff.mpr (h i _ _ hi' h1 h2)

theorem isDirCycleB_iff {G : Graph α} {c : List α} :
    isDirCycleB G c = true ↔ isDirCycleP G c := by
  simp only [isDirCycleB, isDirCycleP, Bool.and_eq_true, Bool.not_eq_true',
    List.isEmpty_eq_false, decide_eq_true_eq, List.all_eq_true, cycleChainB_iff]
  tauto

theorem mem_simple_cycles {G : Graph α} {c : List α} :
    c ∈ simple_cycles G ↔
      c ∈ nodeSeqs G ∧ isDirCycleP G c ∧ isCanonicalB G c = true := by
  simp [simple_cycles, List.mem_dedup, List.mem_filter, Bool.and_eq_true,
    isDirCycleB_iff, and_assoc]

/-! ### Rotation and canonicity of enumerated cycles -/

omit [DecidableEq α] in
theorem isDirCycleP_rotate {G : Graph α} {c : List α} (h : isDirCycleP G c)
    (k : ℕ) : isDirCycleP G (c.rotate k) := by
  obtain ⟨hne, hnd, hmem, hch⟩ := h
  have hpos : 0 < c.length := List.length_pos.mpr hne
  refine ⟨fun hnil => hne (List.rotate_eq_nil_iff.mp hnil),
    List.nodup_rotate.mpr hnd, fun x hx => hmem x (List.mem_rotate.mp hx),
    fun i u v hi hu hv => ?_⟩
  rw [List.length_rotate] at hi
  rw [List.get?_rotate hi] at hu
  rw [List.length_rotate] at hv
  rw [List.get?_rotate (Nat.mod_lt _ hpos)] at hv
  rw [Nat.mod_add_mod] at hv
  have hj : (i + k) % c.length < c.length := Nat.mod_lt _ hpos
  refine hch ((i + k) % c.length) u v hj hu ?_
  rw [Nat.mod_add_mod]
  have : i + 1 + k = i + k + 1 := by omega
  rw [← this]
  exact hv

theorem canonical_min {G : Graph α} {c : List α} {h0 x : α}
    (hc : isCanonicalB G c = true) (hh : c.head? = some h0) (hx : x ∈ c) :
    G.nodes.indexOf h0 ≤ G.nodes.indexOf x := by
  unfold isCanonicalB at hc
  rw [hh] at hc
  simpa using List.all_eq_true.mp hc x hx

theorem eq_of_mem_simple_cycles_isRotated {G : Graph α} {c₁ c₂ : List α}
    (h1 : c₁ ∈ simple_cycles G) (h2 : c₂ ∈ simple_cycles G)
    (hr : List.IsRotated c₁ c₂) : c₁ = c₂ := by
  obtain ⟨-, ⟨hne1, hnd1, hmem1, -⟩, hcan1⟩ := mem_simple_cycles.mp h1
  obtain ⟨-, ⟨hne2, hnd2, hmem2, -⟩, hcan2⟩ := mem_simple_cycles.mp h2
  obtain ⟨k, hk⟩ := hr
  obtain ⟨a1, t1, rfl⟩ := List.exists_cons_of_ne_nil hne1
  obtain ⟨a2, t2, ha2⟩ := List.exists_cons_of_ne_nil hne2
  have hpos : 0 < (a1 :: t1).length := List.length_pos.mpr hne1
  have hhead2 : c₂.head? = some a2 := by rw [ha2]; rfl
  have hget : c₂.get? 0 = ((a1 :: t1).rotate k).get? 0 := by rw [hk]
  rw [List.get?_rotate hpos, Nat.zero_add] at hget
  have hhead2' : (a1 :: t1).get? (k % (a1 :: t1).length) = some a2 := by
    rw [← hget, List.get?_zero]
    exact hhead2
  have ha2mem : a2 ∈ a1 :: t1 := by
    have := hk ▸ List.mem_rotate (l := a1 :: t1) (a := a2) (n := k)
    exact this.mp (ha2 ▸ List.mem_cons_self a2 t2)
  have ha1mem2 : a1 ∈ c₂ := by
    rw [← hk]
    exact List.mem_rotate.mpr (List.mem_cons_self a1 t1)
  have hle1 : G.nodes.indexOf a1 ≤ G.nodes.indexOf a2 :=
    canonical_min hcan1 rfl ha2mem
  have hle2 : G.nodes.indexOf a2 ≤ G.nodes.indexOf a1 :=
    canonical_min hcan2 hhead2 ha1mem2
  have ha12 : a1 = a2 :=
    (List.indexOf_inj (hmem1 a1 (List.mem_cons_self a1 t1))
      (hmem2 a2 (ha2 ▸ List.mem_cons_self a2 t2))).mp
        (Nat.le_antisymm hle1 hle2)
  have hzero : (a1 :: t1).get? (k % (a1 :: t1).length) = (a1 :: t1).get? 0 := by
    rw [hhead2', ← ha12]; rfl
  have hkmod : k % (a1 :: t1).length = 0 :=
    List.get?_inj (Nat.mod_lt _ hpos) hnd1 hzero
  rw [← hk, ← List.rotate_mod, hkmod, List.rotate_zero]

theorem simple_cycles_complete {G : Graph α} {c : List α}
    (hN : G.nodes.Nodup) (h : isDirCycleP G c) : simple_cycles G ≠ [] := by
  have hne := h.1
  cases harg : c.argmin (fun x => G.nodes.indexOf x) with
  | none => exact absurd (List.argmin_eq_none.mp harg) hne
  | some m =>
    have hm : m ∈ c := List.argmin_mem harg
    have hmin : ∀ a ∈ c, G.nodes.indexOf m ≤ G.nodes.indexOf a :=
      fun a ha => List.le_of_mem_argmin ha harg
    have hj : c.indexOf m < c.length := List.indexOf_lt_length.mpr hm
    have hrot : isDirCycleP G (c.rotate (c.indexOf m)) :=
      isDirCycleP_rotate h (c.indexOf m)
    have hhead : (c.rotate (c.indexOf m)).get? 0 = some m := by
      rw [List.get?_rotate (List.length_pos.mpr hne), Nat.zero_add,
        Nat.mod_eq_of_lt hj]
      exact List.indexOf_get? hm
    refine List.ne_nil_of_mem (a := c.rotate (c.indexOf m))
      (mem_simple_cycles.mpr ⟨mem_nodeSeqs_of hN hrot.2.1 hrot.2.2.1, hrot, ?_⟩)
    unfold isCanonicalB
    rw [← List.get?_zero, hhead]
    exact List.all_eq_true.mpr fun x hx => by
      simpa using hmin x (List.mem_rotate.mp hx)

/-! ### The edges produced by the graph builder -/

theorem build_graph_edges_eq (df : List (Record α)) :
    (build_graph df).edges = df.foldl insertEdge [] := by
  suffices h : ∀ (ns : List α) (es : List (Edge α)),
      (df.foldl (fun G r => ⟨insertNodes G.nodes r, insertEdge G.edges r⟩)
        (⟨ns, es⟩ : Graph α)).edges = df.foldl insertEdge es from h [] []
  induction df with
  | nil => intro ns es; rfl
  | cons r df ih => intro ns es; exact ih _ _

theorem keyB_insertEdge_upd (u v : α) (r : Record α) (e : Edge α) :
    keyB u v (if e.src = r.lender ∧ e.dst = r.borrower then
      { e with weight := r.amount, label := r.label } else e) = keyB u v e := by
  split <;> rfl

theorem insertEdge_eq_update {es : List (Edge α)} {r : Record α}
    (h : es.any (fun e =>
      decide (e.src = r.lender) && decide (e.dst = r.borrower)) = true) :
    insertEdge es r = es.map (fun e =>
      if e.src = r.lender ∧ e.dst = r.borrower then
        { e with weight := r.amount, label := r.label }
      else e) := by
  unfold insertEdge
  rw [if_pos h]

theorem insertEdge_eq_append {es : List (Edge α)} {r : Record α}
    (h : es.any (fun e =>
      decide (e.src = r.lender) && decide (e.dst = r.borrower)) = false) :
    insertEdge es r = es ++ [⟨r.lender, r.borrower, r.amount, r.label⟩] := by
  unfold insertEdge
  rw [if_neg]
  simp [h]

theorem foldl_insertEdge_filter_key (u v : α) (df : List (Record α)) :
    (df.foldl insertEdge []).filter (keyB u v) =
      ((df.filter (rkeyB u v)).getLast?).elim []
        (fun r => [Edge.mk u v r.amount r.label]) := by
  induction df using List.reverseRecOn with
  | nil => rfl
  | append_singleton df r ih =>
    rw [List.foldl_append, List.foldl_cons, List.foldl_nil, List.filter_append]
    by_cases hr : rkeyB u v r = true
    · obtain ⟨hl, hb⟩ := by simpa [rkeyB] using hr
      subst hl; subst hb
      have hlast : (df.filter (rkeyB r.lender r.borrower) ++
          List.filter (rkeyB r.lender r.borrower) [r]).getLast? = some r := by
        rw [show List.filter (rkeyB r.lender r.borrower) [r] = [r] by simp [rkeyB]]
        exact List.getLast?_concat _
      rw [hlast]
      by_cases hany : (df.foldl insertEdge []).any
          (fun e => decide (e.src = r.lender) && decide (e.dst = r.borrower)) = true
      · rw [insertEdge_eq_update hany]
        obtain ⟨e0, he0, hk0⟩ := List.any_eq_true.mp hany
        have he0f : e0 ∈ (df.foldl insertEdge []).filter
            (keyB r.lender r.borrower) := List.mem_filter.mpr ⟨he0, hk0⟩
        rw [List.filter_map]
        simp only [Function.comp_def]
        rw [List.filter_congr (fun e _ => keyB_insertEdge_upd r.lender r.borrower r e)]
        rw [ih] at he0f ⊢
        cases hcase : (df.filter (rkeyB r.lender r.borrower)).getLast? with
        | none => rw [hcase] at he0f; simp at he0f
        | some r0 => simp
      · rw [insertEdge_eq_append (Bool.eq_false_iff.mpr hany)]
        have hnil : (df.foldl insertEdge []).filter (keyB r.lender r.borrower) = [] :=
          List.filter_eq_nil_iff.mpr fun e he hk =>
            hany (List.any_eq_true.mpr ⟨e, he, hk⟩)
        rw [List.filter_append, hnil, List.nil_append]
        simp [keyB]
    · have hfr : List.filter (rkeyB u v) [r] = [] :=
        List.filter_eq_nil_iff.mpr fun x hx hk => by
          rw [List.mem_singleton] at hx
          subst hx
          exact hr hk
      rw [hfr, List.append_nil]
      by_cases hany : (df.foldl insertEdge []).any
          (fun e => decide (e.src = r.lender) && decide (e.dst = r.borrower)) = true
      · rw [insertEdge_eq_update hany]
        rw [List.filter_map]
        simp only [Function.comp_def]
        rw [List.filter_congr (fun e _ => keyB_insertEdge_upd u v r e)]
        rw [ih]
        cases hcase : (df.filter (rkeyB u v)).getLast? with
        | none => rfl
        | some r0 =>
          simp only [Option.elim, List.map_cons, List.map_nil]
          rw [if_neg]
          rintro ⟨h1, h2⟩
          exact hr (by simp [rkeyB, ← h1, ← h2])
      · rw [insertEdge_eq_append (Bool.eq_false_iff.mpr hany)]
        have hone : List.filter (keyB u v)
            [(⟨r.lender, r.borrower, r.amount, r.label⟩ : Edge α)] = [] :=
          List.filter_eq_nil_iff.mpr fun x hx hk => by
            rw [List.mem_singleton] at hx
            subst hx
            exact hr hk
        rw [List.filter_append, hone, List.append_nil, ih]

/-! ### Paths and pair dependencies -/

theorem mem_simplePaths {G : Graph α} {s t : α} {p : List α} :
    p ∈ simplePaths G s t ↔ p ∈ nodeSeqs G ∧ isPathB G p = true ∧
      p.head? = some s ∧ p.getLast? = some t := by
  simp [simplePaths, List.mem_dedup, List.mem_filter, Bool.and_eq_true,
    and_assoc]

theorem mem_shortestPaths {G : Graph α} {s t : α} {p : List α}
    (h : p ∈ shortestPaths G s t) : p ∈ simplePaths G s t := by
  unfold shortestPaths at h
  exact (List.mem_filter.mp h).1

theorem pairDep_nonneg (G : Graph α) (s t v : α) : 0 ≤ pairDep G s t v := by
  simp only [pairDep]
  split
  · exact le_refl 0
  · exact div_nonneg (Nat.cast_nonneg _) (Nat.cast_nonneg _)

theorem pairDep_le_one (G : Graph α) (s t v : α) : pairDep G s t v ≤ 1 := by
  simp only [pairDep]
  split
  · exact zero_le_one
  · rename_i hne
    have hpos : 0 < ((shortestPaths G s t).length : ℚ) := by
      have : (shortestPaths G s t).length ≠ 0 := by
        intro h0
        exact hne (List.isEmpty_iff.mpr (List.length_eq_zero.mp h0))
      exact_mod_cast Nat.pos_of_ne_zero this
    rw [div_le_one hpos]
    exact_mod_cast List.length_filter_le _ _

theorem pairDep_src_self (G : Graph α) (t v : α) : pairDep G v t v = 0 := by
  simp only [pairDep]
  split
  · rfl
  · rw [show (shortestPaths G v t).filter (throughB v) = [] from ?_, List.length_nil]
    · exact zero_div _
    · refine List.filter_eq_nil_iff.mpr fun p hp ht => ?_
      have hhead := (mem_simplePaths.mp (mem_shortestPaths hp)).2.2.1
      simp only [throughB, Bool.and_eq_true, Bool.not_eq_true',
        decide_eq_false_iff_not] at ht
      exact ht.1.2 hhead

theorem pairDep_dst_self (G : Graph α) (s v : α) : pairDep G s v v = 0 := by
  simp only [pairDep]
  split
  · rfl
  · rw [show (shortestPaths G s v).filter (throughB v) = [] from ?_, List.length_nil]
    · exact zero_div _
    · refine List.filter_eq_nil_iff.mpr fun p hp ht => ?_
      have hlast := (mem_simplePaths.mp (mem_shortestPaths hp)).2.2.2
      simp only [throughB, Bool.and_eq_true, Bool.not_eq_true',
        decide_eq_false_iff_not] at ht
      exact ht.2 hlast

theorem sum_map_le_filter_length_mul {β : Type} (f : β → ℚ) (p : β → Bool)
    (B : ℚ) (hB : 0 ≤ B) :
    ∀ l : List β, (∀ x ∈ l, f x ≤ if p x then B else 0) →
      (l.map f).sum ≤ ((l.filter p).length : ℚ) * B
  | [], _ => by simp
  | x :: xs, h => by
    have hx := h x (List.mem_cons_self x xs)
    have ih := sum_map_le_filter_length_mul f p B hB xs
      (fun y hy => h y (List.mem_cons_of_mem x hy))
    rw [List.map_cons, List.sum_cons, List.filter_cons]
    by_cases hpx : p x = true
    · rw [if_pos hpx] at hx
      rw [if_pos hpx, List.length_cons, Nat.cast_add, Nat.cast_one]
      linarith
    · rw [if_neg hpx] at hx
      rw [if_neg hpx]
      linarith

theorem filter_ne_length {l : List α} {a : α} (hN : l.Nodup) (ha : a ∈ l) :
    (l.filter (fun x => !decide (x = a))).length = l.length - 1 := by
  induction l with
  | nil => cases ha
  | cons x xs ih =>
    rw [List.nodup_cons] at hN
    rw [List.filter_cons]
    by_cases hxa : x = a
    · subst hxa
      rw [if_neg (by simp)]
      rw [List.filter_eq_self.mpr fun b hb => by
        simp only [Bool.not_eq_true', decide_eq_false_iff_not]
        exact fun hba => hN.1 (hba ▸ hb)]
      simp
    · rcases List.mem_cons.mp ha with h | h
      · exact absurd h.symm hxa
      · rw [if_pos (by simp [hxa])]
        rw [List.length_cons, ih hN.2 h, List.length_cons]
        have := List.length_pos.mpr (List.ne_nil_of_mem h)
        omega

theorem filter_ne_two_length {l : List α} {a b : α} (hN : l.Nodup)
    (ha : a ∈ l) (hb : b ∈ l) (hab : a ≠ b) :
    (l.filter (fun x => !decide (x = a) && !decide (x = b))).length =
      l.length - 2 := by
  have h1 : (l.filter (fun x => !decide (x = a) && !decide (x = b))) =
      ((l.filter (fun x => !decide (x = b))).filter (fun x => !decide (x = a))) := by
    rw [List.filter_filter]
  rw [h1]
  have hbmem : b ∈ l.filter (fun x => !decide (x = b)) → False := by
    intro h
    simpa using (List.mem_filter.mp h).2
  have hamem : a ∈ l.filter (fun x => !decide (x = b)) :=
    List.mem_filter.mpr ⟨ha, by simpa using hab⟩
  rw [filter_ne_length (hN.filter _) hamem, filter_ne_length hN hb]
  have := List.length_pos.mpr (List.ne_nil_of_mem hb)
  omega

/-! ### Betweenness bounds -/

theorem isPathB_parts {G : Graph α} {p : List α} (h : isPathB G p = true) :
    p ≠ [] ∧ p.Nodup ∧ (∀ x ∈ p, x ∈ G.nodes) ∧ pathChainB G p = true := by
  simp only [isPathB, Bool.and_eq_true, Bool.not_eq_true',
    List.isEmpty_eq_false, decide_eq_true_eq, List.all_eq_true] at h
  exact ⟨h.1.1.1, h.1.1.2, fun x hx => by simpa using h.1.2 x hx, h.2⟩

theorem throughB_parts {p : List α} {v : α} (h : throughB v p = true) :
    v ∈ p ∧ p.head? ≠ some v ∧ p.getLast? ≠ some v := by
  simp only [throughB, Bool.and_eq_true, Bool.not_eq_true',
    decide_eq_true_eq, decide_eq_false_iff_not] at h
  exact ⟨h.1.1, h.1.2, h.2⟩

theorem throughB_three_le {G : Graph α} {s t v : α} {p : List α}
    (hp : p ∈ simplePaths G s t) (ht : throughB v p = true) : 3 ≤ p.length := by
  obtain ⟨-, hP, -, -⟩ := mem_simplePaths.mp hp
  obtain ⟨-, hnd, -, -⟩ := isPathB_parts hP
  obtain ⟨hv, hh, hl⟩ := throughB_parts ht
  obtain ⟨⟨j, hj⟩, hget⟩ := List.mem_iff_get.mp hv
  have hj0 : j ≠ 0 := by
    intro h0
    subst h0
    exact hh (by rw [← List.get?_zero, List.get?_eq_get hj, hget])
  have hjl : j ≠ p.length - 1 := by
    intro hl1
    refine hl ?_
    rw [List.getLast?_eq_get?, ← hl1, List.get?_eq_get hj, hget]
  omega

theorem pairDep_eq_zero_of_small {G : Graph α} (h : G.nodes.length < 3)
    (s t v : α) : pairDep G s t v = 0 := by
  simp only [pairDep]
  split
  · rfl
  · rw [show (shortestPaths G s t).filter (throughB v) = [] from ?_, List.length_nil]
    · exact zero_div _
    · refine List.filter_eq_nil_iff.mpr fun p hp ht => ?_
      have hsp := mem_shortestPaths hp
      have h3 := throughB_three_le hsp ht
      have hle := length_le_of_mem_nodeSeqs (mem_simplePaths.mp hsp).1
      omega

theorem isPathB_chain_adj {G : Graph α} {p : List α} {j : ℕ} {u w : α}
    (h : isPathB G p = true) (hj : j + 1 < p.length)
    (hu : p.get? j = some u) (hw : p.get? (j + 1) = some w) : adjP G u w := by
  obtain ⟨-, -, -, hch⟩ := isPathB_parts h
  have := List.all_eq_true.mp hch j (List.mem_range.mpr (by omega))
  rw [hu, hw] at this
  exact adjB_iff.mp this

theorem pairDep_eq_zero_of_no_in {G : Graph α} {v : α}
    (hin : inDegree G v = 0) (s t : α) : pairDep G s t v = 0 := by
  simp only [pairDep]
  split
  · rfl
  · rw [show (shortestPaths G s t).filter (throughB v) = [] from ?_, List.length_nil]
    · exact zero_div _
    · refine List.filter_eq_nil_iff.mpr fun p hp ht => ?_
      have hsp := mem_shortestPaths hp
      obtain ⟨-, hP, -, -⟩ := mem_simplePaths.mp hsp
      obtain ⟨hv, hh, -⟩ := throughB_parts ht
      obtain ⟨⟨j, hj⟩, hget⟩ := List.mem_iff_get.mp hv
      have hj0 : j ≠ 0 := by
        intro h0
        subst h0
        exact hh (by rw [← List.get?_zero, List.get?_eq_get hj, hget])
      have hj1 : j - 1 + 1 < p.length := by omega
      have hgu : ∃ u, p.get? (j - 1) = some u :=
        ⟨p.get ⟨j - 1, by omega⟩, List.get?_eq_get (by omega)⟩
      obtain ⟨u, hu⟩ := hgu
      have hwv : p.get? (j - 1 + 1) = some v := by
        rw [show j - 1 + 1 = j from by omega, List.get?_eq_get hj, hget]
      obtain ⟨e, he, hsrc, hdst⟩ := isPathB_chain_adj hP hj1 hu hwv
      have : e ∈ G.edges.filter (fun e => decide (e.dst = v)) :=
        List.mem_filter.mpr ⟨he, by simp [hdst]⟩
      rw [inDegree, List.length_eq_zero] at hin
      rw [hin] at this
      cases this

theorem inner_sum_self (G : Graph α) (v : α) :
    (G.nodes.map (fun t => if v = t then 0 else pairDep G v t v)).sum = 0 := by
  refine List.sum_eq_zero fun x hx => ?_
  obtain ⟨t, -, rfl⟩ := List.mem_map.mp hx
  split
  · rfl
  · exact pairDep_src_self G t v

theorem inner_sum_le {G : Graph α} {s v : α} (hN : G.nodes.Nodup)
    (hs : s ∈ G.nodes) (hv : v ∈ G.nodes) (hsv : s ≠ v) :
    (G.nodes.map (fun t => if s = t then 0 else pairDep G s t v)).sum ≤
      ((G.nodes.length - 2 : ℕ) : ℚ) := by
  have hb := sum_map_le_filter_length_mul
    (fun t => if s = t then 0 else pairDep G s t v)
    (fun t => !decide (t = s) && !decide (t = v)) 1 zero_le_one G.nodes ?_
  · rw [filter_ne_two_length hN hs hv hsv, mul_one] at hb
    exact hb
  · intro t ht
    dsimp only
    by_cases h1 : s = t
    · subst h1
      simp
    · rw [if_neg h1]
      by_cases h2 : t = v
      · subst h2
        rw [if_neg (by simp)]
        exact le_of_eq (pairDep_dst_self G s t)
      · rw [if_pos (by simp [h2, Ne.symm h1])]
        exact pairDep_le_one G s t v

theorem rawBetweenness_nonneg (G : Graph α) (v : α) :
    0 ≤ rawBetweenness G v := by
  refine List.sum_nonneg fun x hx => ?_
  obtain ⟨s, -, rfl⟩ := List.mem_map.mp hx
  refine List.sum_nonneg fun y hy => ?_
  obtain ⟨t, -, rfl⟩ := List.mem_map.mp hy
  split
  · exact le_refl 0
  · exact pairDep_nonneg G s t v

theorem rawBetweenness_le {G : Graph α} {v : α} (hN : G.nodes.Nodup)
    (hv : v ∈ G.nodes) :
    rawBetweenness G v ≤
      ((G.nodes.length - 1 : ℕ) : ℚ) * ((G.nodes.length - 2 : ℕ) : ℚ) := by
  unfold rawBetweenness
  have hb := sum_map_le_filter_length_mul
    (fun s => (G.nodes.map (fun t => if s = t then 0 else pairDep G s t v)).sum)
    (fun s => !decide (s = v)) ((G.nodes.length - 2 : ℕ) : ℚ)
    (Nat.cast_nonneg _) G.nodes ?_
  · rw [filter_ne_length hN hv] at hb
    exact hb
  · intro s hs
    dsimp only
    by_cases h1 : s = v
    · subst h1
      rw [if_neg (by simp)]
      exact le_of_eq (inner_sum_self G s)
    · rw [if_pos (by simp [h1])]
      exact inner_sum_le hN hs hv h1

theorem rawBetweenness_small {G : Graph α} (h : G.nodes.length < 3) (v : α) :
    rawBetweenness G v = 0 := by
  refine List.sum_eq_zero fun x hx => ?_
  obtain ⟨s, -, rfl⟩ := List.mem_map.mp hx
  refine List.sum_eq_zero fun y hy => ?_
  obtain ⟨t, -, rfl⟩ := List.mem_map.mp hy
  split
  · rfl
  · exact pairDep_eq_zero_of_small h s t v

theorem betweennessValue_nonneg (G : Graph α) (v : α) :
    0 ≤ betweennessValue G v := by
  unfold betweennessValue
  split
  · rename_i h2
    have h2q : (2 : ℚ) < (G.nodes.length : ℚ) := by exact_mod_cast h2
    exact div_nonneg (rawBetweenness_nonneg G v)
      (mul_nonneg (by linarith) (by linarith))
  · exact rawBetweenness_nonneg G v

theorem betweennessValue_le_one {G : Graph α} {v : α} (hN : G.nodes.Nodup)
    (hv : v ∈ G.nodes) : betweennessValue G v ≤ 1 := by
  unfold betweennessValue
  split
  · rename_i h2
    have h2q : (2 : ℚ) < (G.nodes.length : ℚ) := by exact_mod_cast h2
    rw [div_le_one (by nlinarith)]
    have hb := rawBetweenness_le hN hv
    rw [Nat.cast_sub (by omega), Nat.cast_sub (by omega)] at hb
    simpa using hb
  · rename_i h2
    rw [rawBetweenness_small (by omega) v]
    exact zero_le_one

theorem betweennessValue_isolated {G : Graph α} {v : α}
    (hin : inDegree G v = 0) : betweennessValue G v = 0 := by
  have hraw : rawBetweenness G v = 0 := by
    refine List.sum_eq_zero fun x hx => ?_
    obtain ⟨s, -, rfl⟩ := List.mem_map.mp hx
    refine List.sum_eq_zero fun y hy => ?_
    obtain ⟨t, -, rfl⟩ := List.mem_map.mp hy
    split
    · rfl
    · exact pairDep_eq_zero_of_no_in hin s t
  unfold betweennessValue
  rw [hraw]
  split
  · exact zero_div _
  · rfl

theorem betweennessValue_small {G : Graph α} (h : G.nodes.length < 3) (v : α) :
    betweennessValue G v = 0 := by
  unfold betweennessValue
  rw [if_neg (by omega), rawBetweenness_small h v]

/-! ### The cycle-highlight loops, edge by edge -/

theorem foldl_map_comm {β γ : Type} (g : γ → β → β) :
    ∀ (l : List γ) (es : List β),
      l.foldl (fun es c => es.map (g c)) es =
        es.map (fun e => l.foldl (fun e c => g c e) e)
  | [], es => by simp
  | c :: l, es => by
    rw [List.foldl_cons, foldl_map_comm g l (es.map (g c)), List.map_map]
    simp [Function.comp_def]

theorem markCycle_eq_map (es : List (VisEdge α)) (c : List α) :
    markCycle es c = es.map
      (fun e => (List.range c.length).foldl (fun e i => markEdgeStep c i e) e) := by
  unfold markCycle markStep
  exact foldl_map_comm (markEdgeStep c) (List.range c.length) es

theorem markCycles_eq_map (es : List (VisEdge α)) (cycles : List (List α)) :
    markCycles es cycles = es.map (markEdgeAll cycles) := by
  unfold markCycles markEdgeAll
  have hfun : (markCycle : List (VisEdge α) → List α → List (VisEdge α)) =
      fun es c => es.map
        (fun e => (List.range c.length).foldl (fun e i => markEdgeStep c i e) e) :=
    funext fun es => funext fun c => markCycle_eq_map es c
  rw [hfun]
  exact foldl_map_comm
    (fun c e => (List.range c.length).foldl (fun e i => markEdgeStep c i e) e)
    cycles es

theorem markEdgeStep_pos {c : List α} {i : ℕ} {e : VisEdge α}
    (h : c.get? i = some e.src ∧ c.get? ((i + 1) % c.length) = some e.dst) :
    markEdgeStep c i e =
      { e with color := "purple", title := e.title ++ " (Cycle)" } := by
  unfold markEdgeStep
  rw [if_pos h]

theorem markEdgeStep_neg {c : List α} {i : ℕ} {e : VisEdge α}
    (h : ¬(c.get? i = some e.src ∧ c.get? ((i + 1) % c.length) = some e.dst)) :
    markEdgeStep c i e = e := by
  unfold markEdgeStep
  rw [if_neg h]

theorem markFoldRange_spec (c : List α) (e : VisEdge α) :
    ∀ n : ℕ,
      ((List.range n).foldl (fun e i => markEdgeStep c i e) e).src = e.src ∧
      ((List.range n).foldl (fun e i => markEdgeStep c i e) e).dst = e.dst ∧
      ((List.range n).foldl (fun e i => markEdgeStep c i e) e).color =
        (if ∃ i, i < n ∧ c.get? i = some e.src ∧
            c.get? ((i + 1) % c.length) = some e.dst then "purple" else e.color)
  | 0 => by simp
  | n + 1 => by
    have ih := markFoldRange_spec c e n
    rw [List.range_succ, List.foldl_append, List.foldl_cons, List.foldl_nil]
    by_cases hc : c.get? n = some e.src ∧
        c.get? ((n + 1) % c.length) = some e.dst
    · have hc' : c.get? n =
          some ((List.range n).foldl (fun e i => markEdgeStep c i e) e).src ∧
          c.get? ((n + 1) % c.length) =
          some ((List.range n).foldl (fun e i => markEdgeStep c i e) e).dst := by
        rw [ih.1, ih.2.1]
        exact hc
      rw [markEdgeStep_pos hc']
      refine ⟨ih.1, ih.2.1, ?_⟩
      rw [if_pos ⟨n, Nat.lt_succ_self n, hc⟩]
    · have hc' : ¬(c.get? n =
          some ((List.range n).foldl (fun e i => markEdgeStep c i e) e).src ∧
          c.get? ((n + 1) % c.length) =
          some ((List.range n).foldl (fun e i => markEdgeStep c i e) e).dst) := by
        rw [ih.1, ih.2.1]
        exact hc
      rw [markEdgeStep_neg hc']
      refine ⟨ih.1, ih.2.1, ?_⟩
      rw [ih.2.2]
      refine if_congr ?_ rfl rfl
      constructor
      · rintro ⟨i, hi, h⟩
        exact ⟨i, Nat.lt_succ_of_lt hi, h⟩
      · rintro ⟨i, hi, h⟩
        rcases Nat.lt_succ_iff_lt_or_eq.mp hi with h' | rfl
        · exact ⟨i, h', h⟩
        · exact absurd h hc

theorem markEdgeAll_spec :
    ∀ (cycles : List (List α)) (e : VisEdge α),
      (markEdgeAll cycles e).src = e.src ∧
      (markEdgeAll cycles e).dst = e.dst ∧
      (markEdgeAll cycles e).color =
        (if ∃ c ∈ cycles, ∃ i, i < c.length ∧ c.get? i = some e.src ∧
            c.get? ((i + 1) % c.length) = some e.dst then "purple" else e.color)
  | [], e => by simp [markEdgeAll]
  | c :: cs, e => by
    have h1 := markFoldRange_spec c e c.length
    have hstep : markEdgeAll (c :: cs) e = markEdgeAll cs
        ((List.range c.length).foldl (fun e i => markEdgeStep c i e) e) := rfl
    have h2 := markEdgeAll_spec cs
      ((List.range c.length).foldl (fun e i => markEdgeStep c i e) e)
    rw [h1.1, h1.2.1] at h2
    rw [hstep]
    refine ⟨h2.1, h2.2.1, ?_⟩
    rw [h2.2.2, h1.2.2]
    by_cases hcs : ∃ c' ∈ cs, ∃ i, i < c'.length ∧ c'.get? i = some e.src ∧
        c'.get? ((i + 1) % c'.length) = some e.dst
    · rw [if_pos hcs]
      obtain ⟨c', hmem, h⟩ := hcs
      rw [if_pos ⟨c', List.mem_cons_of_mem c hmem, h⟩]
    · rw [if_neg hcs]
      by_cases hc : ∃ i, i < c.length ∧ c.get? i = some e.src ∧
          c.get? ((i + 1) % c.length) = some e.dst
      · rw [if_pos hc, if_pos ⟨c, List.mem_cons_self c cs, hc⟩]
      · rw [if_neg hc, if_neg ?_]
        rintro ⟨c', hmem, h⟩
        rcases List.mem_cons.mp hmem with rfl | hmem'
        · exact hc h
        · exact hcs ⟨c', hmem', h⟩

omit [DecidableEq α] in
theorem initVisEdges_color {G : Graph α} {e : VisEdge α}
    (h : e ∈ initVisEdges G) : e.color ≠ "purple" := by
  obtain ⟨e1, -, rfl⟩ := List.mem_map.mp h
  dsimp only
  split
  · decide
  · decide

/-! ### Claim theorems -/

/-- C1 (counterexample): two records with the same ordered (lender,
borrower) pair do not produce two separate edges — `build_graph` keeps a
single edge for the pair, so the edge list has length 1, not 2. -/
theorem c1_duplicate_pair_counterexample :
    (build_graph [(⟨0, 1, 100, "Legit"⟩ : Record ℕ), ⟨0, 1, 200, "Legit"⟩]).edges =
      [⟨0, 1, 200, "Legit"⟩] ∧
    (build_graph [(⟨0, 1, 100, "Legit"⟩ : Record ℕ),
      ⟨0, 1, 200, "Legit"⟩]).edges.length ≠ 2 := by
  refine ⟨by decide, by decide⟩

/-- C1 (amended): the graph returned by `build_graph` contains at most one
edge object per ordered (lender, borrower) pair: duplicate records
overwrite, they are never kept as parallel edges. -/
theorem build_graph_one_edge_per_pair (df : List (Record α)) (u v : α) :
    ((build_graph df).edges.filter (keyB u v)).length ≤ 1 := by
  rw [build_graph_edges_eq, foldl_insertEdge_filter_key]
  cases (df.filter (rkeyB u v)).getLast? <;> simp

/-- C10: when the input contains records with the same ordered (lender,
borrower) pair, the graph has exactly one edge for that pair and its
weight and label come from the last such record (last-write-wins). -/
theorem build_graph_last_write_wins (df : List (Record α)) (u v : α)
    (r : Record α) (h : (df.filter (rkeyB u v)).getLast? = some r) :
    (build_graph df).edges.filter (keyB u v) = [⟨u, v, r.amount, r.label⟩] := by
  rw [build_graph_edges_eq, foldl_insertEdge_filter_key, h]
  rfl

/-- C10 witness: the duplicated pair (0, 1) ends up as the single edge
carrying the second record's amount and label. -/
theorem build_graph_last_write_wins_witness :
    (([(⟨0, 1, 100, "Legit"⟩ : Record ℕ), ⟨0, 1, 200, "Fraud"⟩].filter
      (rkeyB 0 1)).getLast? = some ⟨0, 1, 200, "Fraud"⟩) ∧
    (build_graph [(⟨0, 1, 100, "Legit"⟩ : Record ℕ),
      ⟨0, 1, 200, "Fraud"⟩]).edges.filter (keyB 0 1) =
        [⟨0, 1, 200, "Fraud"⟩] :=
  ⟨by decide, build_graph_last_write_wins
    [(⟨0, 1, 100, "Legit"⟩ : Record ℕ), ⟨0, 1, 200, "Fraud"⟩] 0 1
    ⟨0, 1, 200, "Fraud"⟩ (by decide)⟩

unseal Rat.mul Rat.inv in
/-- C2 (counterexample): the code cannot realize any other value of the
claimed parameters: with a configured bound of 2 the spec-level composer
reports no suspicious cycle on the triangle, while `detect_fraud` (which
takes no such parameter) still reports the 3-cycle because its bound is
fixed at 5; likewise a configured threshold of 1/5 colors a node with
score 3/20 green, while the code's fixed 0.1 threshold colors it red. -/
theorem c2_fixed_parameters_counterexample :
    (detect_fraud_spec gTriangle 2).2 = [] ∧
    (detect_fraud gTriangle).2 = [[0, 1, 2]] ∧
    nodeColorSpec (3 / 20) (1 / 5) = "green" ∧
    nodeColor (3 / 20) = "red" := by
  exact ⟨by decide, by decide, by decide, by decide⟩

/-- C2 (amended): `detect_fraud` takes only the graph and fixes the
maximum suspicious-cycle length internally at 5, and the visualization
fixes the high-risk color threshold internally at 0.1; neither is an
accepted parameter. -/
theorem detect_fraud_fixed_bound_and_threshold (G : Graph α) :
    (detect_fraud G).2 = filter_suspicious (simple_cycles G) 5 ∧
    ∀ q : ℚ, nodeColor q = "red" ↔ q > 1 / 10 := by
  refine ⟨rfl, fun q => ?_⟩
  unfold nodeColor
  by_cases h : q > 1 / 10
  · rw [if_pos h]
    exact ⟨fun _ => h, fun _ => rfl⟩
  · rw [if_neg h]
    exact ⟨fun habs => absurd habs (by decide), fun hq => absurd hq h⟩

/-- C5: the suspicious-cycle filter keeps exactly the enumerated cycles of
length at most `k`, and it is idempotent at the same `k`. -/
theorem filter_suspicious_exact_and_idempotent (G : Graph α) (k : ℕ) :
    (∀ c, c ∈ filter_suspicious (simple_cycles G) k ↔
      c ∈ simple_cycles G ∧ c.length ≤ k) ∧
    filter_suspicious (filter_suspicious (simple_cycles G) k) k =
      filter_suspicious (simple_cycles G) k := by
  constructor
  · intro c
    simp [filter_suspicious, List.mem_filter]
  · unfold filter_suspicious
    rw [List.filter_filter]
    exact List.filter_congr fun c _ => Bool.and_self _

/-- C3: an edge of the rendered network is colored purple (flagged as a
cycle edge) iff some suspicious cycle contains its source immediately
followed by its target, wrapping from the last element to the first; in
particular with no suspicious cycles no edge is flagged. -/
theorem visualize_cycle_edge_iff (G : Graph α) (scores : List (α × ℚ))
    (cycles : List (List α)) :
    ∀ e ∈ (visualize_graph G scores cycles).2,
      (e.color = "purple" ↔ ∃ c ∈ cycles, ∃ i, i < c.length ∧
        c.get? i = some e.src ∧ c.get? ((i + 1) % c.length) = some e.dst) ∧
      (cycles = [] → e.color ≠ "purple") := by
  intro e he
  have he' : e ∈ markCycles (initVisEdges G) cycles := he
  rw [markCycles_eq_map] at he'
  obtain ⟨e0, he0, rfl⟩ := List.mem_map.mp he'
  have hspec := markEdgeAll_spec cycles e0
  have hc0 := initVisEdges_color he0
  rw [hspec.1, hspec.2.1, hspec.2.2]
  by_cases hP : ∃ c ∈ cycles, ∃ i, i < c.length ∧ c.get? i = some e0.src ∧
      c.get? ((i + 1) % c.length) = some e0.dst
  · rw [if_pos hP]
    refine ⟨⟨fun _ => hP, fun _ => rfl⟩, ?_⟩
    rintro rfl
    obtain ⟨c, hc, -⟩ := hP
    cases hc
  · rw [if_neg hP]
    exact ⟨⟨fun habs => absurd habs hc0, fun hex => absurd hex hP⟩,
      fun _ => hc0⟩

/-- C3 witness: on the triangle graph with the suspicious cycle
`[0, 1, 2]`, the rendered edge `0 → 1` is purple and the flag
characterization holds for it. -/
theorem visualize_cycle_edge_iff_witness :
    ((⟨0, 1, "purple", "$1000 | Fraud (Cycle)"⟩ : VisEdge ℕ) ∈
      (visualize_graph gTriangle [] [[0, 1, 2]]).2) ∧
    ((⟨0, 1, "purple", "$1000 | Fraud (Cycle)"⟩ : VisEdge ℕ).color = "purple" ↔
      ∃ c ∈ [[0, 1, 2]], ∃ i, i < c.length ∧
        c.get? i = some (⟨0, 1, "purple", "$1000 | Fraud (Cycle)"⟩ : VisEdge ℕ).src ∧
        c.get? ((i + 1) % c.length) =
          some (⟨0, 1, "purple", "$1000 | Fraud (Cycle)"⟩ : VisEdge ℕ).dst) :=
  ⟨by decide,
    (visualize_cycle_edge_iff gTriangle [] [[0, 1, 2]]
      ⟨0, 1, "purple", "$1000 | Fraud (Cycle)"⟩ (by decide)).1⟩

/-- C4: no two cycles reported by the enumeration are rotations of one
another, and every reported cycle, traversed with wraparound, uses only
directed edges present in the graph. -/
theorem simple_cycles_no_rotation_and_edges (G : Graph α) :
    (simple_cycles G).Pairwise (fun c₁ c₂ => ¬ List.IsRotated c₁ c₂) ∧
    ∀ c ∈ simple_cycles G, ∀ i u v, i < c.length → c.get? i = some u →
      c.get? ((i + 1) % c.length) = some v → adjP G u v := by
  constructor
  · refine List.Pairwise.imp_of_mem ?_ (List.nodup_dedup _)
    intro c₁ c₂ h1 h2 hne hrot
    exact hne (eq_of_mem_simple_cycles_isRotated h1 h2 hrot)
  · intro c hc
    exact (mem_simple_cycles.mp hc).2.1.2.2.2

/-- C4 witness: the triangle's enumerated cycle `[0, 1, 2]` steps only
along edges of the graph, here the step from position 1 to position 2. -/
theorem simple_cycles_no_rotation_and_edges_witness :
    ([0, 1, 2] ∈ simple_cycles gTriangle) ∧ adjP gTriangle 1 2 :=
  ⟨by decide,
    (simple_cycles_no_rotation_and_edges gTriangle).2 [0, 1, 2] (by decide)
      1 1 2 (by decide) (by decide) (by decide)⟩

/-- C6: the centrality result has one entry per node of the graph, every
score lies in the closed interval from 0 to 1, and a node with in-degree 0
and out-degree 0 scores 0. -/
theorem betweenness_keys_range_isolated (G : Graph α) (hN : G.nodes.Nodup) :
    (∀ v ∈ G.nodes, ∃ q, (v, q) ∈ betweenness_centrality G) ∧
    (∀ v q, (v, q) ∈ betweenness_centrality G → 0 ≤ q ∧ q ≤ 1) ∧
    (∀ v q, inDegree G v = 0 → outDegree G v = 0 →
      (v, q) ∈ betweenness_centrality G → q = 0) := by
  refine ⟨fun v hv => ⟨betweennessValue G v, List.mem_map.mpr ⟨v, hv, rfl⟩⟩,
    fun v q hm => ?_, fun v q hin _ hm => ?_⟩
  · obtain ⟨w, hw, heq⟩ := List.mem_map.mp hm
    injection heq with h1 h2
    subst h1
    subst h2
    exact ⟨betweennessValue_nonneg G w, betweennessValue_le_one hN hw⟩
  · obtain ⟨w, hw, heq⟩ := List.mem_map.mp hm
    injection heq with h1 h2
    subst h1
    subst h2
    exact betweennessValue_isolated hin

unseal Rat.add Rat.mul Rat.inv Rat.sub in
/-- C6 witness: on the triangle graph every node scores one half, which
lies between 0 and 1. -/
theorem betweenness_keys_range_isolated_witness :
    gTriangle.nodes.Nodup ∧ (0 ≤ (1 : ℚ) / 2 ∧ (1 : ℚ) / 2 ≤ 1) :=
  ⟨by decide,
    (betweenness_keys_range_isolated gTriangle (by decide)).2.1 0 (1 / 2)
      (by decide)⟩

/-- C7: with at least three nodes the score is the raw betweenness divided
by (n - 1)(n - 2); with fewer than three nodes the division is skipped and
every node scores 0, so no division by zero occurs. -/
theorem betweenness_normalization_guarded (G : Graph α) (v : α) :
    (3 ≤ G.nodes.length → betweennessValue G v = rawBetweenness G v /
      (((G.nodes.length : ℚ) - 1) * ((G.nodes.length : ℚ) - 2))) ∧
    (G.nodes.length < 3 → betweennessValue G v = 0) := by
  constructor
  · intro h3
    unfold betweennessValue
    rw [if_pos (by omega)]
  · intro h3
    exact betweennessValue_small h3 v

/-- C7 witness: the triangle has three nodes so its scores divide by
(3 - 1)(3 - 2), and the two-node single-edge graph scores 0 without
dividing. -/
theorem betweenness_normalization_guarded_witness :
    (betweennessValue gTriangle 0 = rawBetweenness gTriangle 0 /
      (((gTriangle.nodes.length : ℚ) - 1) * ((gTriangle.nodes.length : ℚ) - 2))) ∧
    betweennessValue gSingleEdge 0 = 0 :=
  ⟨(betweenness_normalization_guarded gTriangle 0).1 (by decide),
    (betweenness_normalization_guarded gSingleEdge 0).2 (by decide)⟩

/-- C8: a self-loop on a graph node is reported as the length-1 cycle, and
on a graph with no directed cycle at all the enumeration returns the empty
list. -/
theorem self_loop_cycle_and_acyclic_empty (G : Graph α) (u : α) :
    (u ∈ G.nodes → adjP G u u → [u] ∈ simple_cycles G) ∧
    ((∀ c, ¬ isDirCycleP G c) → simple_cycles G = []) := by
  constructor
  · intro hu hadj
    refine mem_simple_cycles.mpr ⟨?_, ⟨?_, ?_, ?_, ?_⟩, ?_⟩
    · exact List.mem_flatMap.mpr ⟨[u],
        mem_subseqs.mpr (List.singleton_sublist.mpr hu),
        mem_perms.mpr (List.Perm.refl [u])⟩
    · simp
    · simp
    · simpa using hu
    · intro i u' v' hi h1 h2
      have hi0 : i = 0 := by
        simp only [List.length_singleton] at hi
        omega
      subst hi0
      simp only [List.length_singleton] at h2
      have hu' : u' = u := by
        simp only [List.get?] at h1
        exact (Option.some.inj h1).symm
      have hv' : v' = u := by
        simp only [List.get?] at h2
        exact (Option.some.inj h2).symm
      subst hu'
      subst hv'
      exact hadj
    · simp [isCanonicalB]
  · intro h
    refine List.eq_nil_iff_forall_not_mem.mpr fun c hc => ?_
    exact h c (mem_simple_cycles.mp hc).2.1

/-- C8 witness: the self-loop graph reports the cycle `[0]`, and the
acyclic single-edge graph reports no cycle. -/
theorem self_loop_cycle_and_acyclic_empty_witness :
    ([0] ∈ simple_cycles gSelfLoop) ∧ simple_cycles gSingleEdge = [] :=
  ⟨(self_loop_cycle_and_acyclic_empty gSelfLoop 0).1 (by decide) (by decide),
    (self_loop_cycle_and_acyclic_empty gSingleEdge 0).2 fun c hc =>
      simple_cycles_complete (by decide) hc (by decide)⟩

/-- C9: the fraud detection result is a function of the graph's node list
and edge list alone — two graphs with the same nodes and edges yield
identical scores and identical suspicious-cycle lists in the same order. -/
theorem detect_fraud_deterministic (G G' : Graph α)
    (hn : G.nodes = G'.nodes) (he : G.edges = G'.edges) :
    detect_fraud G = detect_fraud G' := by
  cases G
  cases G'
  simp only at hn he
  subst hn
  subst he
  rfl

/-- C9 witness: the triangle graph built by folding the records equals the
literal graph with the same fields, and detection agrees on them. -/
theorem detect_fraud_deterministic_witness :
    detect_fraud gTriangle = detect_fraud
      (⟨[0, 1, 2], [⟨0, 1, 1000, "Fraud"⟩, ⟨1, 2, 1000, "Fraud"⟩,
        ⟨2, 0, 1000, "Fraud"⟩]⟩ : Graph ℕ) :=
  detect_fraud_deterministic gTriangle
    ⟨[0, 1, 2], [⟨0, 1, 1000, "Fraud"⟩, ⟨1, 2, 1000, "Fraud"⟩,
      ⟨2, 0, 1000, "Fraud"⟩]⟩ (by decide) (by decide)
